import Mathlib

/-!
Verification development for the `leptos-animate` library: a shallow
embedding of its keyed reconciliation engine (`src/animated_for.rs`), the
geometry value types (`src/position.rs`), the second-order dynamics
simulation (`src/dynamics.rs`), the animation strategies
(`src/animation_defs.rs`) and the size-transition adapter
(`src/size_transition.rs`).

Modelling conventions:
- `f32`/`f64` arithmetic is embedded in `ℚ` (exact rationals); the `f32`
  constant `std::f32::consts::PI` is embedded as its exact rational value
  `pi32`.
- Rust panics (`expect`/`unwrap`) are embedded as `Except String`, carrying
  the panic message; a panic aborts the surrounding computation exactly as
  the `Except` error short-circuits it.
- DOM elements are identified by `Nat` ids; the browser measurement service
  is an environment function `Nat → ElemGeom` giving each element's
  connectedness, bounding rects and computed margin styles.
- `indexmap::IndexMap` is embedded as an association list with the
  insertion-order-preserving `insert`, `swap_remove` and `extend`
  operations of that crate; `std::collections::HashMap` is embedded as an
  association list as well (the engine only looks entries up by key).
- The observable behaviour of a reconciliation cycle (snapshots taken,
  observers paused, elements pinned, animations started and cancelled,
  finish handlers registered) is recorded as a list of `Event`s in the
  order the source performs them.
- The `compensate_window_scroll` option is modelled in its default `false`
  configuration (the `else { anim_fn() }` branch of the source), and the
  per-item animation overrides are elided: they select which strategy runs
  but do not change any of the control flow verified here.
-/

/-! ## `src/position.rs` -/

/-- Fuzzy comparison from `position.rs`: `(a - b).abs() < 0.1`. -/
def fuzzyCompare (a b : ℚ) : Bool := decide (|a - b| < 1 / 10)

/-- The `Position` struct of `position.rs`. -/
structure Position where
  x : ℚ
  y : ℚ
deriving DecidableEq

/-- The `PartialEq` impl for `Position`: fuzzy on both coordinates. -/
def Position.beq (p q : Position) : Bool :=
  fuzzyCompare p.x q.x && fuzzyCompare p.y q.y

/-- The `Extent` struct of `position.rs`. -/
structure Extent where
  width : ℚ
  height : ℚ
deriving DecidableEq

/-- The `PartialEq` impl for `Extent`: fuzzy on both extents. -/
def Extent.beq (a b : Extent) : Bool :=
  fuzzyCompare a.width b.width && fuzzyCompare a.height b.height

/-- The derived `PartialEq` on `Option<Extent>` used by the move-detection
check in `animated_for.rs` (mixed `Some`/`None` compare unequal). -/
def extentOptBeq : Option Extent → Option Extent → Bool
  | none, none => true
  | some a, some b => Extent.beq a b
  | _, _ => false

/-- The `ElementSnapshot` struct of `animated_for.rs`. -/
structure ElementSnapshot where
  position : Position
  extent : Option Extent
deriving DecidableEq

/-- The skip condition of the deferred move pass in `animated_for.rs`
(lines 652-655): skip the move animation when the positions fuzzy-match and
either no new extent was recorded or the extents fuzzy-match. -/
def moveSkip (prevSnapshot newSnapshot : ElementSnapshot) : Bool :=
  Position.beq prevSnapshot.position newSnapshot.position &&
    (newSnapshot.extent.isNone || extentOptBeq newSnapshot.extent prevSnapshot.extent)

/-! ## `src/dynamics.rs` -/

/-- Exact rational value of the `f32` constant `std::f32::consts::PI`. -/
def pi32 : ℚ := 13176795 / 4194304

/-- The `SecondOrderDynamics` struct of `dynamics.rs`, instantiated at the
scalar `DynamicValue` used by `DynamicsAnimation` (embedded in `ℚ`). -/
structure SecondOrderDynamics where
  goal : ℚ
  y : ℚ
  yd : ℚ
  k1 : ℚ
  k2 : ℚ
  k3 : ℚ
deriving DecidableEq

/-- `SecondOrderDynamics::new` from `dynamics.rs`. -/
def SecondOrderDynamics.new (f z r x0 : ℚ) : SecondOrderDynamics :=
  { goal := x0
    y := x0
    yd := 0
    k1 := z / (pi32 * f)
    k2 := 1 / ((2 * pi32 * f) * (2 * pi32 * f))
    k3 := r * z / (2 * pi32 * f) }

/-- `SecondOrderDynamics::update` from `dynamics.rs`: the `scale`/`add`/
`sub` call chain of the source written out over `ℚ`. -/
def SecondOrderDynamics.update (s : SecondOrderDynamics) (newGoal dt : ℚ) :
    SecondOrderDynamics :=
  let xd := (newGoal - s.goal) * (1 / dt)
  let y := s.y + s.yd * dt
  let yd := (newGoal + xd * s.k3 - y - s.yd * s.k1) * (dt / s.k2) + s.yd
  { s with goal := newGoal, y := y, yd := yd }

/-! ## `src/animation_defs.rs`, `DynamicsAnimation` -/

/-- The `fuzzy_compare` of `animation_defs.rs` (epsilon `0.01`), used as the
convergence check of the dynamics sampling loop. -/
def fuzzyCompareVel (a b : ℚ) : Bool := decide (|a - b| < 1 / 100)

/-- The sampling loop inside `DynamicsAnimation::new`: repeatedly step the
simulation towards goal `1.0` with `dt = 1/15`, pushing each position;
stop (logging an error, modelled by the `Bool` component) once more than
1000 samples were collected, or once the velocity has converged.
Returns the samples, the final simulation state and the logged flag.
The `fuel` argument only bounds the recursion depth so that the recursion
is structural: whenever `1000 ≤ fuel + data.length` the `fuel = 0` branch
is unreachable, because the over-1000-samples cap fires first
(`dynLoopGo_fuel_irrelevant` below); the loop entry point `dynLoop` starts
with enough fuel for its empty initial sample list. -/
def dynLoopGo : Nat → SecondOrderDynamics → List ℚ →
    List ℚ × SecondOrderDynamics × Bool
  | fuel, d, data =>
    let d' := d.update 1 (1 / 15)
    if (data ++ [d'.y]).length > 1000 then
      (data ++ [d'.y], d', true)
    else if fuzzyCompareVel d'.yd 0 then
      (data ++ [d'.y], d', false)
    else
      match fuel with
      | 0 => (data ++ [d'.y], d', true)
      | fuel' + 1 => dynLoopGo fuel' d' (data ++ [d'.y])

/-- The `loop { ... }` of `DynamicsAnimation::new`, entered with the empty
sample vector. -/
def dynLoop (d : SecondOrderDynamics) (data : List ℚ) :
    List ℚ × SecondOrderDynamics × Bool :=
  dynLoopGo 1000 d data

/-- The data computed by `DynamicsAnimation::new` in `animation_defs.rs`:
the sampled curve, its duration (`data.len() / ITERATION_RATE` seconds) and
whether the too-long diagnostic was logged.  The serialization of the
samples into a `linear(...)` timing-function string is not modelled. -/
structure DynamicsAnimation where
  duration : ℚ
  samples : List ℚ
  loggedError : Bool
deriving DecidableEq

/-- `DynamicsAnimation::new` from `animation_defs.rs`. -/
def DynamicsAnimation.new (f z r : ℚ) : DynamicsAnimation :=
  let res := dynLoop (SecondOrderDynamics.new f z r 0) []
  { duration := (res.1.length : ℚ) / 15
    samples := res.1
    loggedError := res.2.2 }

/-! ## `src/size_transition.rs` -/

/-- The two `SizeTransitionKeyframe`s built in the `SizeTransitionHandler`
impl: for each of `[snapshot, new_snapshot]`, margin-right is
`width - new_snapshot.width` and margin-bottom is
`height - new_snapshot.height` (in px). -/
def sizeTransitionKeyframes (snapshot newSnapshot : Extent) : List (ℚ × ℚ) :=
  [snapshot, newSnapshot].map fun s =>
    (s.width - newSnapshot.width, s.height - newSnapshot.height)

/-- Observable action of the size-transition adapter: one invocation of the
resize strategy together with the keyframes applied to the element. -/
inductive SizeEvent where
  | resizeCall (prev next : Extent) (keyframes : List (ℚ × ℚ))
deriving DecidableEq

/-- One invocation of the `use_resize_observer` callback installed by
`animated_size` in `size_transition.rs`: given the stored baseline snapshot
and the newly reported extent, animate only when a baseline exists, then
store the new extent as the baseline. -/
def animatedSizeStep (snapshot : Option Extent) (newSnapshot : Extent) :
    Option Extent × List SizeEvent :=
  (some newSnapshot,
    match snapshot with
    | some prev =>
        [SizeEvent.resizeCall prev newSnapshot (sizeTransitionKeyframes prev newSnapshot)]
    | none => [])

/-! ## Theorems for C3, C4, C7, C9 -/

/-- C3: `SecondOrderDynamics::update(new_goal, dt)` starting from state
`(goal, y, yd)` computes `xd = (new_goal - goal)/dt`, sets
`goal := new_goal`, `y := y + yd*dt` and
`yd := yd + dt*(new_goal + k3*xd - y_updated - k1*yd)/k2` where `y_updated`
is the position after the semi-implicit Euler step; and
`SecondOrderDynamics::new` sets `k1 = z/(π f)`, `k2 = 1/(2 π f)²`,
`k3 = r z/(2 π f)` (with π the code's `f32` PI constant). -/
theorem update_matches_recurrence (s : SecondOrderDynamics) (g dt f z r x0 : ℚ) :
    ((s.update g dt).goal = g ∧
      (s.update g dt).y = s.y + s.yd * dt ∧
      (s.update g dt).yd =
        s.yd + dt * (g + s.k3 * ((g - s.goal) / dt) - (s.y + s.yd * dt) - s.k1 * s.yd) / s.k2 ∧
      (s.update g dt).k1 = s.k1 ∧ (s.update g dt).k2 = s.k2 ∧ (s.update g dt).k3 = s.k3) ∧
    ((SecondOrderDynamics.new f z r x0).k1 = z / (pi32 * f) ∧
      (SecondOrderDynamics.new f z r x0).k2 = 1 / (2 * pi32 * f) ^ 2 ∧
      (SecondOrderDynamics.new f z r x0).k3 = r * z / (2 * pi32 * f) ∧
      (SecondOrderDynamics.new f z r x0).goal = x0 ∧
      (SecondOrderDynamics.new f z r x0).y = x0 ∧
      (SecondOrderDynamics.new f z r x0).yd = 0) := by
  refine ⟨⟨rfl, rfl, ?_, rfl, rfl, rfl⟩, ⟨rfl, ?_, rfl, rfl, rfl, rfl⟩⟩
  · show (g + (g - s.goal) * (1 / dt) * s.k3 - (s.y + s.yd * dt) - s.yd * s.k1) *
        (dt / s.k2) + s.yd = _
    ring
  · show 1 / ((2 * pi32 * f) * (2 * pi32 * f)) = _
    ring

/-- C4: `Position` equality is the fuzzy comparison with tolerance `0.1` on
both coordinates; the deferred pass does not start a move animation when
both coordinates differ by less than `0.1` (and the extents, when compared,
are fuzzy-equal), and does start one when either coordinate differs by more
than `0.1`. -/
theorem moveSkip_fuzzy_threshold (prev next : ElementSnapshot) :
    (Position.beq prev.position next.position = true ↔
      |prev.position.x - next.position.x| < 1 / 10 ∧
        |prev.position.y - next.position.y| < 1 / 10) ∧
    (|prev.position.x - next.position.x| < 1 / 10 →
      |prev.position.y - next.position.y| < 1 / 10 →
      (next.extent = none ∨ extentOptBeq next.extent prev.extent = true) →
      moveSkip prev next = true) ∧
    (|prev.position.x - next.position.x| > 1 / 10 ∨
        |prev.position.y - next.position.y| > 1 / 10 →
      moveSkip prev next = false) := by
  constructor
  · simp [Position.beq, fuzzyCompare]
  constructor
  · intro hx hy hext
    simp only [moveSkip, Position.beq, fuzzyCompare, Bool.and_eq_true, decide_eq_true_eq,
      Bool.or_eq_true]
    refine ⟨⟨hx, hy⟩, ?_⟩
    rcases hext with h | h
    · exact Or.inl (by simp [h])
    · exact Or.inr h
  · intro hor
    have hbeq : Position.beq prev.position next.position = false := by
      unfold Position.beq
      rcases hor with h | h
      · have hf : fuzzyCompare prev.position.x next.position.x = false := by
          unfold fuzzyCompare
          exact decide_eq_false (not_lt.mpr (le_of_lt h))
        rw [hf, Bool.false_and]
      · have hf : fuzzyCompare prev.position.y next.position.y = false := by
          unfold fuzzyCompare
          exact decide_eq_false (not_lt.mpr (le_of_lt h))
        rw [hf, Bool.and_false]
    unfold moveSkip
    rw [hbeq, Bool.false_and]

/-- Witness for C4 at a concrete input: positions `(0,0)` and `(5,0)`
differ by more than `0.1` in x, so the move animation is started. -/
theorem moveSkip_fuzzy_threshold_witness :
    moveSkip ⟨⟨0, 0⟩, none⟩ ⟨⟨5, 0⟩, none⟩ = false :=
  (moveSkip_fuzzy_threshold ⟨⟨0, 0⟩, none⟩ ⟨⟨5, 0⟩, none⟩).2.2 (Or.inl (by norm_num))

/-- When the sample list has already reached 1000 entries, the loop body
takes the over-cap branch no matter how much fuel is left. -/
theorem dynLoopGo_of_cap (fuel : Nat) (d : SecondOrderDynamics) (data : List ℚ)
    (hlen : 1000 ≤ data.length) :
    dynLoopGo fuel d data =
      (data ++ [(d.update 1 (1 / 15)).y], d.update 1 (1 / 15), true) := by
  have hcap : (data ++ [(d.update 1 (1 / 15)).y]).length > 1000 := by
    simp only [List.length_append, List.length_cons, List.length_nil]
    omega
  cases fuel with
  | zero => simp only [dynLoopGo, if_pos hcap]
  | succ fuel' => simp only [dynLoopGo, if_pos hcap]

/-- The fuel bound of `dynLoopGo` is irrelevant as long as it dominates the
distance to the 1000-sample cap: the cap branch always fires before the
fuel runs out. -/
theorem dynLoopGo_fuel_irrelevant :
    ∀ fuel fuel' (d : SecondOrderDynamics) (data : List ℚ),
      1000 ≤ fuel + data.length → 1000 ≤ fuel' + data.length →
      dynLoopGo fuel d data = dynLoopGo fuel' d data := by
  intro fuel
  induction fuel with
  | zero =>
    intro fuel' d data h h'
    rw [dynLoopGo_of_cap 0 d data (by omega), dynLoopGo_of_cap fuel' d data (by omega)]
  | succ fuel ih =>
    intro fuel' d data h h'
    by_cases hcap : (data ++ [(d.update 1 (1 / 15)).y]).length > 1000
    · have hlen : 1000 ≤ data.length := by
        simp only [List.length_append, List.length_cons, List.length_nil] at hcap
        omega
      rw [dynLoopGo_of_cap _ d data hlen, dynLoopGo_of_cap fuel' d data hlen]
    · have hlen : data.length ≤ 999 := by
        simp only [List.length_append, List.length_cons, List.length_nil] at hcap
        omega
      cases fuel' with
      | zero => omega
      | succ fuel'' =>
        simp only [dynLoopGo, if_neg hcap]
        by_cases hconv : fuzzyCompareVel (d.update 1 (1 / 15)).yd 0 = true
        · rw [if_pos hconv, if_pos hconv]
        · rw [if_neg hconv, if_neg hconv]
          exact ih fuel'' (d.update 1 (1 / 15)) (data ++ [(d.update 1 (1 / 15)).y])
            (by simp only [List.length_append, List.length_cons, List.length_nil]; omega)
            (by simp only [List.length_append, List.length_cons, List.length_nil]; omega)

/-- Key bound lemma for the dynamics sampling loop: starting from at most
1000 collected samples (with sufficient fuel), the loop adds at least one
sample, never exceeds 1001 samples, reaches exactly 1001 samples when it
logs the too-long diagnostic, and has converged velocity when it does not
log. -/
theorem dynLoopGo_spec :
    ∀ fuel d data, data.length ≤ 1000 → 1000 ≤ fuel + data.length →
      data.length < (dynLoopGo fuel d data).1.length ∧
      (dynLoopGo fuel d data).1.length ≤ 1001 ∧
      ((dynLoopGo fuel d data).2.2 = true → (dynLoopGo fuel d data).1.length = 1001) ∧
      ((dynLoopGo fuel d data).2.2 = false →
        fuzzyCompareVel (dynLoopGo fuel d data).2.1.yd 0 = true) := by
  intro fuel
  induction fuel with
  | zero =>
    intro d data hlen hn
    rw [dynLoopGo_of_cap 0 d data (by omega)]
    simp only [List.length_append, List.length_cons, List.length_nil]
    exact ⟨by omega, by omega, fun _ => by omega, by simp⟩
  | succ fuel ih =>
    intro d data hlen hn
    by_cases hcap : (data ++ [(d.update 1 (1 / 15)).y]).length > 1000
    · simp only [dynLoopGo, if_pos hcap]
      simp only [List.length_append, List.length_cons, List.length_nil] at hcap ⊢
      exact ⟨by omega, by omega, fun _ => by omega, by simp⟩
    · by_cases hconv : fuzzyCompareVel (d.update 1 (1 / 15)).yd 0 = true
      · simp only [dynLoopGo, if_neg hcap, if_pos hconv]
        simp only [List.length_append, List.length_cons, List.length_nil] at hcap ⊢
        exact ⟨by omega, by omega, by simp, fun _ => hconv⟩
      · simp only [dynLoopGo, if_neg hcap, if_neg hconv]
        simp only [List.length_append, List.length_cons, List.length_nil] at hcap
        have := ih (d.update 1 (1 / 15)) (data ++ [(d.update 1 (1 / 15)).y])
          (by simp only [List.length_append, List.length_cons, List.length_nil]; omega)
          (by simp only [List.length_append, List.length_cons, List.length_nil]; omega)
        simp only [List.length_append, List.length_cons, List.length_nil] at this
        exact ⟨by omega, this.2.1, this.2.2.1, this.2.2.2⟩

/-- C7: for every `(f, z, r)`, `DynamicsAnimation::new` terminates with at
least one and at most 1001 samples, `duration = samples/15` seconds; it
stops at the hard cap of over-1000 samples exactly when it logs the
diagnostic (and still produces the curve), and otherwise it stopped because
the simulated velocity fell below the epsilon `0.01`. -/
theorem dynamicsAnimation_new_terminates (f z r : ℚ) :
    1 ≤ (DynamicsAnimation.new f z r).samples.length ∧
    (DynamicsAnimation.new f z r).samples.length ≤ 1001 ∧
    (DynamicsAnimation.new f z r).duration =
      ((DynamicsAnimation.new f z r).samples.length : ℚ) / 15 ∧
    ((DynamicsAnimation.new f z r).loggedError = true →
      (DynamicsAnimation.new f z r).samples.length = 1001) ∧
    ((DynamicsAnimation.new f z r).loggedError = false →
      fuzzyCompareVel (dynLoop (SecondOrderDynamics.new f z r 0) []).2.1.yd 0 = true) := by
  have h := dynLoopGo_spec 1000 (SecondOrderDynamics.new f z r 0) [] (by simp) (by simp)
  simp only [List.length_nil] at h
  exact ⟨h.1, h.2.1, rfl, h.2.2.1, h.2.2.2⟩

/-- Witness for C7: at `f = 1/(2 π₃₂)`, `z = 1`, `r = -1/15` the simulation
converges after its very first sample without logging, and the final
velocity passes the fuzzy convergence check. -/
theorem dynamicsAnimation_new_terminates_witness :
    fuzzyCompareVel
      (dynLoop (SecondOrderDynamics.new (1 / (2 * pi32)) 1 (-1 / 15) 0) []).2.1.yd 0 = true := by
  apply (dynamicsAnimation_new_terminates (1 / (2 * pi32)) 1 (-1 / 15)).2.2.2.2
  show (dynLoop (SecondOrderDynamics.new (1 / (2 * pi32)) 1 (-1 / 15) 0) []).2.2 = false
  rw [dynLoop]
  have hyd : ((SecondOrderDynamics.new (1 / (2 * pi32)) 1 (-1 / 15) 0).update 1 (1 / 15)).yd
      = 0 := by
    simp only [SecondOrderDynamics.new, SecondOrderDynamics.update, pi32]
    norm_num
  have hstep : dynLoopGo 1000 (SecondOrderDynamics.new (1 / (2 * pi32)) 1 (-1 / 15) 0) [] =
      ([] ++ [((SecondOrderDynamics.new (1 / (2 * pi32)) 1 (-1 / 15) 0).update 1 (1 / 15)).y],
        (SecondOrderDynamics.new (1 / (2 * pi32)) 1 (-1 / 15) 0).update 1 (1 / 15), false) := by
    rw [dynLoopGo]
    rw [if_neg (by norm_num), if_pos (by rw [hyd]; simp [fuzzyCompareVel])]
  rw [hstep]

/-- C9: the first resize observation only records a baseline and starts no
animation; every later observation invokes the resize strategy exactly once
with `(previous, new)` extents and applies the two-keyframe margin pair
animating margin-right from `(previous.width - new.width)px` to `0px` and
margin-bottom from `(previous.height - new.height)px` to `0px`. -/
theorem animatedSizeStep_baseline_then_margin_keyframes (prev next : Extent) :
    animatedSizeStep none next = (some next, []) ∧
    animatedSizeStep (some prev) next =
      (some next,
        [SizeEvent.resizeCall prev next
          [(prev.width - next.width, prev.height - next.height), (0, 0)]]) := by
  refine ⟨rfl, ?_⟩
  simp [animatedSizeStep, sizeTransitionKeyframes]

/-! ## Ordered-map model

`indexmap::IndexMap` is embedded as an association list.  `insert` replaces
the value in place when the key is present and appends otherwise,
`swap_remove` swaps the removed entry with the last entry and pops, and
`extend` folds `insert` — exactly the operations `animated_for.rs` uses on
`alive_items` and `leaving_items`. -/

section IndexMapModel

variable {K V : Type} [DecidableEq K]

/-- The key list of an association-list map, in entry order. -/
def keysOf (l : List (K × V)) : List K := l.map Prod.fst

/-- Key lookup (`IndexMap::get` / `HashMap::get`). -/
def lookupIM : List (K × V) → K → Option V
  | [], _ => none
  | p :: rest, k => if p.1 = k then some p.2 else lookupIM rest k

/-- `contains_key`. -/
def containsKeyIM (l : List (K × V)) (k : K) : Bool := (lookupIM l k).isSome

/-- `IndexMap::insert`: replace the value in place when the key exists,
append a fresh entry otherwise. -/
def insertIM (l : List (K × V)) (k : K) (v : V) : List (K × V) :=
  if containsKeyIM l k then l.map (fun p => if p.1 = k then (k, v) else p)
  else l ++ [(k, v)]

/-- `IndexMap::extend`: fold `insert` over the new entries. -/
def extendIM (l : List (K × V)) (xs : List (K × V)) : List (K × V) :=
  xs.foldl (fun acc p => insertIM acc p.1 p.2) l

/-- Collecting an iterator of pairs into an `IndexMap` (last value wins for
duplicate keys, position of the first occurrence kept). -/
def ofListIM (xs : List (K × V)) : List (K × V) := extendIM [] xs

/-- Index of the entry holding key `k` (the hash-to-index lookup an
`IndexMap` performs before a `swap_remove`). -/
def findIdxIM : List (K × V) → K → Option Nat
  | [], _ => none
  | p :: rest, k => if p.1 = k then some 0 else (findIdxIM rest k).map (· + 1)

/-- `IndexMap::swap_remove`: replace the entry of `k` by the last entry and
pop the last entry; the map is unchanged when `k` is absent. -/
def swapRemoveIM (l : List (K × V)) (k : K) : List (K × V) :=
  match findIdxIM l k with
  | none => l
  | some i =>
    match l.getLast? with
    | none => l
    | some last => (l.set i last).dropLast

/-- `HashMap::remove` on the metadata map (order is irrelevant there). -/
def removeKeyHM (l : List (K × V)) (k : K) : List (K × V) :=
  l.filter fun p => !(decide (p.1 = k))

/-- The eviction loop of `animated_for.rs` (lines 447-453): for each new
key, `swap_remove` it from the leaving map if it is currently there. -/
def evictLeaving (newKeys : List K) (leaving : List (K × V)) : List (K × V) :=
  newKeys.foldl (fun acc k => if containsKeyIM acc k then swapRemoveIM acc k else acc) leaving

theorem lookupIM_isSome_iff {l : List (K × V)} {k : K} :
    (lookupIM l k).isSome = true ↔ k ∈ keysOf l := by
  induction l with
  | nil => simp [lookupIM, keysOf]
  | cons p rest ih =>
    by_cases h : p.1 = k
    · simp [lookupIM, keysOf, h]
    · simp only [lookupIM, if_neg h, keysOf, List.map_cons, List.mem_cons]
      rw [ih]
      constructor
      · exact fun hm => Or.inr hm
      · rintro (hm | hm)
        · exact absurd hm.symm h
        · exact hm

theorem containsKeyIM_iff {l : List (K × V)} {k : K} :
    containsKeyIM l k = true ↔ k ∈ keysOf l := by
  rw [containsKeyIM]; exact lookupIM_isSome_iff

theorem containsKeyIM_eq_false_iff {l : List (K × V)} {k : K} :
    containsKeyIM l k = false ↔ k ∉ keysOf l := by
  rw [← containsKeyIM_iff, Bool.not_eq_true]

theorem lookupIM_eq_none_iff {l : List (K × V)} {k : K} :
    lookupIM l k = none ↔ k ∉ keysOf l := by
  rw [← lookupIM_isSome_iff]
  cases lookupIM l k <;> simp

theorem keysOf_insertIM_of_mem {l : List (K × V)} {k : K} (v : V)
    (h : k ∈ keysOf l) : keysOf (insertIM l k v) = keysOf l := by
  rw [insertIM, if_pos (containsKeyIM_iff.mpr h), keysOf, keysOf, List.map_map]
  refine List.map_congr_left fun p _ => ?_
  by_cases hp : p.1 = k
  · simp [hp]
  · simp [hp]

theorem keysOf_insertIM_of_not_mem {l : List (K × V)} {k : K} (v : V)
    (h : k ∉ keysOf l) : keysOf (insertIM l k v) = keysOf l ++ [k] := by
  rw [insertIM, if_neg (by rw [containsKeyIM_eq_false_iff.mpr h]; exact Bool.false_ne_true),
    keysOf, keysOf, List.map_append]
  rfl

theorem mem_keysOf_insertIM {l : List (K × V)} {k a : K} {v : V} :
    a ∈ keysOf (insertIM l k v) ↔ a ∈ keysOf l ∨ a = k := by
  by_cases h : k ∈ keysOf l
  · rw [keysOf_insertIM_of_mem v h]
    constructor
    · exact fun hm => Or.inl hm
    · rintro (hm | rfl)
      · exact hm
      · exact h
  · rw [keysOf_insertIM_of_not_mem v h, List.mem_append, List.mem_singleton]

theorem nodup_keysOf_insertIM {l : List (K × V)} {k : K} {v : V}
    (h : (keysOf l).Nodup) : (keysOf (insertIM l k v)).Nodup := by
  by_cases hk : k ∈ keysOf l
  · rwa [keysOf_insertIM_of_mem v hk]
  · rw [keysOf_insertIM_of_not_mem v hk]
    exact List.Nodup.append h (List.nodup_singleton k) (by simpa using hk)

theorem mem_keysOf_extendIM {xs l : List (K × V)} {a : K} :
    a ∈ keysOf (extendIM l xs) ↔ a ∈ keysOf l ∨ a ∈ keysOf xs := by
  induction xs generalizing l with
  | nil => simp [extendIM, keysOf]
  | cons p rest ih =>
    simp only [extendIM, List.foldl_cons] at ih ⊢
    rw [ih, mem_keysOf_insertIM]
    simp only [keysOf, List.map_cons, List.mem_cons]
    tauto

theorem nodup_keysOf_extendIM {xs l : List (K × V)}
    (h : (keysOf l).Nodup) : (keysOf (extendIM l xs)).Nodup := by
  induction xs generalizing l with
  | nil => exact h
  | cons p rest ih =>
    rw [extendIM, List.foldl_cons]
    exact ih (nodup_keysOf_insertIM h)

theorem mem_keysOf_ofListIM {xs : List (K × V)} {a : K} :
    a ∈ keysOf (ofListIM xs) ↔ a ∈ keysOf xs := by
  rw [ofListIM, mem_keysOf_extendIM]
  simp [keysOf]

theorem nodup_keysOf_ofListIM {xs : List (K × V)} :
    (keysOf (ofListIM xs)).Nodup :=
  nodup_keysOf_extendIM List.nodup_nil

theorem perm_getElem_cons_eraseIdx :
    ∀ (L : List K) (i : Nat) (h : i < L.length), L.Perm (L[i] :: L.eraseIdx i) := by
  intro L
  induction L with
  | nil => intro i h; simp at h
  | cons x rest ih =>
    intro i h
    cases i with
    | zero => simp [List.eraseIdx]
    | succ j =>
      have hj : j < rest.length := by simpa using h
      have h1 : (x :: rest).Perm (x :: rest[j] :: rest.eraseIdx j) :=
        List.Perm.cons x (ih j hj)
      have h2 : (x :: rest[j] :: rest.eraseIdx j).Perm (rest[j] :: x :: rest.eraseIdx j) :=
        List.Perm.swap rest[j] x (rest.eraseIdx j)
      simpa [List.eraseIdx_cons_succ] using h1.trans h2

theorem perm_set_getLast_dropLast :
    ∀ (L : List K) (i : Nat) (z : K), i < L.length → L.getLast? = some z →
      ((L.set i z).dropLast).Perm (L.eraseIdx i) := by
  intro L
  induction L with
  | nil => intro i z h; simp at h
  | cons x rest ih =>
    intro i z hi hz
    cases i with
    | zero =>
      cases rest with
      | nil =>
        simp only [List.getLast?_singleton, Option.some_inj] at hz
        subst hz
        simp [List.eraseIdx]
      | cons y rest' =>
        have hz' : (y :: rest').getLast? = some z := by
          rwa [List.getLast?_cons_cons] at hz
        simp only [List.set_cons_zero, List.eraseIdx_cons_zero]
        rw [List.dropLast_cons_of_ne_nil (List.cons_ne_nil y rest')]
        have hperm : ((y :: rest').dropLast ++ [z]).Perm (z :: (y :: rest').dropLast) :=
          List.perm_append_singleton z _
        have hsplit : y :: rest' = (y :: rest').dropLast ++ [z] := by
          conv_lhs => rw [← List.dropLast_append_getLast? z hz']
        have hfin : ((y :: rest').dropLast ++ [z]).Perm (y :: rest') := by
          rw [← hsplit]
        exact hperm.symm.trans hfin
    | succ j =>
      have hj : j < rest.length := by simpa using hi
      have hne : rest ≠ [] := List.ne_nil_of_length_pos (Nat.lt_of_le_of_lt (Nat.zero_le j) hj)
      have hz' : rest.getLast? = some z := by
        cases rest with
        | nil => exact absurd rfl hne
        | cons y rest' => rwa [List.getLast?_cons_cons] at hz
      have hset_ne : rest.set j z ≠ [] := by
        intro hcon
        have hlen0 : (rest.set j z).length = 0 := by rw [hcon]; rfl
        rw [List.length_set] at hlen0
        omega
      simp only [List.set_cons_succ, List.eraseIdx_cons_succ]
      rw [List.dropLast_cons_of_ne_nil hset_ne]
      exact List.Perm.cons x (ih j z hj hz')

theorem findIdxIM_eq_none_iff :
    ∀ {l : List (K × V)} {k : K}, findIdxIM l k = none ↔ k ∉ keysOf l := by
  intro l
  induction l with
  | nil => intro k; simp [findIdxIM, keysOf]
  | cons x rest ih =>
    intro k
    by_cases hp : x.1 = k
    · simp [findIdxIM, hp, keysOf]
    · simp only [findIdxIM, if_neg hp, Option.map_eq_none', keysOf, List.map_cons,
        List.mem_cons, ih]
      constructor
      · intro hn hm
        rcases hm with hm | hm
        · exact hp hm.symm
        · exact hn hm
      · intro hn hm
        exact hn (Or.inr hm)

theorem findIdxIM_some_facts :
    ∀ {l : List (K × V)} {k : K} {i : Nat}, findIdxIM l k = some i →
      ∃ h : i < l.length, l[i].1 = k := by
  intro l
  induction l with
  | nil => intro k i h; simp [findIdxIM] at h
  | cons x rest ih =>
    intro k i h
    rw [findIdxIM] at h
    by_cases hp : x.1 = k
    · rw [if_pos hp] at h
      cases h
      exact ⟨by simp, hp⟩
    · rw [if_neg hp] at h
      rcases Option.map_eq_some'.mp h with ⟨j, hj, heq⟩
      subst heq
      rcases ih hj with ⟨hlt, hpj⟩
      exact ⟨by simpa using hlt, by simpa using hpj⟩

theorem keysOf_swapRemoveIM_perm (l : List (K × V)) (k : K) :
    (keysOf (swapRemoveIM l k)).Perm ((keysOf l).erase k) := by
  rw [swapRemoveIM]
  cases hfind : findIdxIM l k with
  | none =>
    have hnotmem : k ∉ keysOf l := findIdxIM_eq_none_iff.mp hfind
    rw [List.erase_of_not_mem hnotmem]
  | some i =>
    rcases findIdxIM_some_facts hfind with ⟨hi, hki⟩
    have hne : l ≠ [] := List.ne_nil_of_length_pos (Nat.lt_of_le_of_lt (Nat.zero_le i) hi)
    cases hlast : l.getLast? with
    | none =>
      exfalso
      cases l with
      | nil => exact hne rfl
      | cons p rest => simp [List.getLast?] at hlast
    | some last =>
      have hkeys : keysOf ((l.set i last).dropLast) = ((keysOf l).set i last.1).dropLast := by
        simp only [keysOf, List.map_dropLast, List.map_set]
      rw [hkeys]
      have hilen : i < (keysOf l).length := by simpa [keysOf] using hi
      have hlast' : (keysOf l).getLast? = some last.1 := by
        simp only [keysOf, List.getLast?_map, hlast, Option.map_some']
      have h1 := perm_set_getLast_dropLast (keysOf l) i last.1 hilen hlast'
      have hgetk : (keysOf l)[i] = k := by
        simp only [keysOf, List.getElem_map]
        exact hki
      have hkmem : k ∈ keysOf l := by
        rw [← hgetk]
        exact List.getElem_mem hilen
      have h2 : (keysOf l).Perm ((keysOf l)[i] :: (keysOf l).eraseIdx i) :=
        perm_getElem_cons_eraseIdx (keysOf l) i hilen
      rw [hgetk] at h2
      have h3 : (keysOf l).Perm (k :: (keysOf l).erase k) := List.perm_cons_erase hkmem
      have h4 : ((keysOf l).eraseIdx i).Perm ((keysOf l).erase k) :=
        List.Perm.cons_inv (h2.symm.trans h3)
      exact h1.trans h4

theorem nodup_keysOf_swapRemoveIM {l : List (K × V)} {k : K}
    (h : (keysOf l).Nodup) : (keysOf (swapRemoveIM l k)).Nodup :=
  ((keysOf_swapRemoveIM_perm l k).nodup_iff).mpr
    (List.Nodup.sublist (List.erase_sublist k (keysOf l)) h)

theorem mem_keysOf_swapRemoveIM {l : List (K × V)} {k a : K}
    (h : (keysOf l).Nodup) :
    a ∈ keysOf (swapRemoveIM l k) ↔ a ∈ keysOf l ∧ a ≠ k := by
  rw [(keysOf_swapRemoveIM_perm l k).mem_iff, List.Nodup.mem_erase_iff h]
  tauto

theorem nodup_keysOf_evictLeaving {ns : List K} {lv : List (K × V)}
    (h : (keysOf lv).Nodup) : (keysOf (evictLeaving ns lv)).Nodup := by
  induction ns generalizing lv with
  | nil => exact h
  | cons n rest ih =>
    rw [evictLeaving, List.foldl_cons]
    by_cases hc : containsKeyIM lv n = true
    · rw [if_pos hc]
      exact ih (nodup_keysOf_swapRemoveIM h)
    · rw [if_neg hc]
      exact ih h

theorem mem_keysOf_evictLeaving {ns : List K} {lv : List (K × V)} {a : K}
    (h : (keysOf lv).Nodup) :
    a ∈ keysOf (evictLeaving ns lv) ↔ a ∈ keysOf lv ∧ a ∉ ns := by
  induction ns generalizing lv with
  | nil => simp [evictLeaving]
  | cons n rest ih =>
    rw [evictLeaving, List.foldl_cons]
    by_cases hc : containsKeyIM lv n = true
    · rw [if_pos hc]
      have hstep := ih (nodup_keysOf_swapRemoveIM (k := n) h)
      rw [evictLeaving] at hstep
      rw [hstep, mem_keysOf_swapRemoveIM h]
      simp only [List.mem_cons]
      tauto
    · rw [if_neg hc]
      have hnot : n ∉ keysOf lv :=
        containsKeyIM_eq_false_iff.mp (Bool.eq_false_iff.mpr hc)
      have hstep := ih h
      rw [evictLeaving] at hstep
      rw [hstep]
      simp only [List.mem_cons]
      constructor
      · rintro ⟨ha, hr⟩
        refine ⟨ha, ?_⟩
        rintro (rfl | hm)
        · exact hnot ha
        · exact hr hm
      · rintro ⟨ha, hr⟩
        exact ⟨ha, fun hm => hr (Or.inr hm)⟩

end IndexMapModel

/-! ## The reconciliation engine of `src/animated_for.rs`

The engine state (`alive_items`, `leaving_items`, `alive_items_meta`) and
one reconciliation cycle of the `RenderEffect` closure are modelled below.
Animation handles are numbered by a counter threaded through the cycle, so
that distinct animations get distinct handles. -/

/-- The `ItemMeta` struct of `animated_for.rs`: element handle, observer
scope and the currently running animation, each optional.  Elements and
scopes are identified by `Nat` ids, animation handles by the `Nat` counter
value they were created at. -/
structure ItemMeta where
  el : Option Nat
  observer : Option Nat
  curAnim : Option Nat
deriving DecidableEq

/-- A computed-style length: either a pixel value (already parsed, as
`strip_suffix("px")` + `parse::<f64>()` would yield it) or a value in some
other unit, on which the `expect` in `get_el_snapshot` panics. -/
inductive CssLen where
  | px (v : ℚ)
  | nonPx
deriving DecidableEq

/-- What the browser measurement service reports for one element:
`is_connected`, `get_bounding_client_rect` of the element and of its offset
parent, and the computed `margin-top` / `margin-left` styles. -/
structure ElemGeom where
  connected : Bool
  boundX : ℚ
  boundY : ℚ
  boundW : ℚ
  boundH : ℚ
  parentX : ℚ
  parentY : ℚ
  marginTop : CssLen
  marginLeft : CssLen
deriving DecidableEq

/-- Observable actions of one reconciliation cycle, in source order. -/
inductive Event (K : Type) where
  | snapshotTaken (k : K)
  | onAfterSnapshot
  | pauseObserver (k : K)
  | onLeaveStart (k : K)
  | pinAbsolute (k : K) (pos : Position) (ext : Extent)
  | startLeave (k : K) (handle : Nat)
  | cancelAnim (handle : Nat)
  | registerFinish (k : K) (handle : Nat)
  | onEnterStart (k : K)
  | startEnter (k : K) (handle : Nat)
  | startMove (k : K) (handle : Nat)
deriving DecidableEq

/-- Whether an event starts an animation (of any of the three kinds). -/
def Event.isStart {K : Type} : Event K → Bool
  | .startLeave _ _ => true
  | .startEnter _ _ => true
  | .startMove _ _ => true
  | _ => false

/-- The engine state owned by one `AnimatedFor` instance. -/
structure EngineState (K I : Type) where
  alive : List (K × I)
  leaving : List (K × I)
  meta : List (K × ItemMeta)
  nextAnim : Nat
deriving DecidableEq

/-- The rendered key list produced by `items_fn` (lines 673-683): alive
keys in collection order followed by leaving keys. -/
def renderedKeys {K I : Type} (s : EngineState K I) : List K :=
  keysOf s.alive ++ keysOf s.leaving

/-- The `expect("el always exists on the client")` on `ItemMeta::el`. -/
def expectEl (el : Option Nat) : Except String Nat :=
  match el with
  | some e => Except.ok e
  | none => Except.error "el always exists on the client"

/-- Parsing a computed margin style: `strip_suffix("px").expect(msg)`. -/
def parsePx (c : CssLen) (errMsg : String) : Except String ℚ :=
  match c with
  | .px v => Except.ok v
  | .nonPx => Except.error errMsg

/-- `get_el_snapshot` from `animated_for.rs` (lines 746-781): position is
the element's bounding rect origin minus the offset parent's bounding rect
origin minus the element's own margins; the extent (bounding rect width and
height) is recorded only when requested.  A margin style that is not in
pixels panics with the corresponding `expect` message. -/
def getElSnapshot (g : ElemGeom) (recordExtent : Bool) :
    Except String ElementSnapshot :=
  let extent := if recordExtent then some { width := g.boundW, height := g.boundH } else none
  match parsePx g.marginTop "margin-top is not in pixels" with
  | .error e => .error e
  | .ok mt =>
    match parsePx g.marginLeft "margin-left is not in pixels" with
    | .error e => .error e
    | .ok ml =>
      .ok { position := { x := g.boundX - g.parentX - ml, y := g.boundY - g.parentY - mt }
            extent := extent }

/-- The initial snapshot pass (lines 428-441): for every metadata entry,
`expect` the element; skip it if it is not connected to the document,
otherwise snapshot it (with extent, for the leave animations). -/
def snapshotPass {K : Type} [DecidableEq K] (env : Nat → ElemGeom) :
    List (K × ItemMeta) → Except String (List (K × ElementSnapshot) × List (Event K))
  | [] => .ok ([], [])
  | (k, m) :: rest =>
    match expectEl m.el with
    | .error e => .error e
    | .ok el =>
      if (env el).connected then
        match getElSnapshot (env el) true with
        | .error e => .error e
        | .ok snap =>
          match snapshotPass env rest with
          | .error e => .error e
          | .ok (snaps, evs) => .ok ((k, snap) :: snaps, Event.snapshotTaken k :: evs)
      else
        snapshotPass env rest

/-- The removal loop of the commit step (lines 463-601): for each item
removed from the alive set, drop its metadata entry, pause its observer
scope, `expect` its element; when it has a before snapshot, fire
`on_leave_start`, pin it to absolute position at the snapshot coordinates
and extent (`extent.unwrap()`), then run `anim_fn`: start the leave
animation, cancel the previously stored animation afterwards, and register
the finish handler that removes the key from the leaving set.  Items
without a snapshot are skipped after the metadata removal (`continue`). -/
def processRemovals {K I : Type} [DecidableEq K] (snaps : List (K × ElementSnapshot)) :
    List (K × I) → List (K × ItemMeta) → Nat →
      Except String (List (K × ItemMeta) × List (Event K) × Nat)
  | [], meta, ctr => .ok (meta, [], ctr)
  | (k, _) :: rest, meta, ctr =>
    match lookupIM meta k with
    | none => processRemovals snaps rest meta ctr
    | some m =>
      let meta1 := removeKeyHM meta k
      let pauseEvs : List (Event K) :=
        match m.observer with
        | some _ => [Event.pauseObserver k]
        | none => []
      match expectEl m.el with
      | .error e => .error e
      | .ok _el =>
        match lookupIM snaps k with
        | none =>
          match processRemovals snaps rest meta1 ctr with
          | .error e => .error e
          | .ok (meta', evs, ctr') => .ok (meta', pauseEvs ++ evs, ctr')
        | some snap =>
          match snap.extent with
          | none => .error "called Option::unwrap on a None value"
          | some ext =>
            let animEvs : List (Event K) :=
              Event.startLeave k ctr ::
                ((match m.curAnim with
                  | some a => [Event.cancelAnim a]
                  | none => []) ++ [Event.registerFinish k ctr])
            match processRemovals snaps rest meta1 (ctr + 1) with
            | .error e => .error e
            | .ok (meta', evs, ctr') =>
              .ok (meta',
                pauseEvs ++ Event.onLeaveStart k :: Event.pinAbsolute k snap.position ext ::
                  animEvs ++ evs,
                ctr')

/-- One synchronous reconciliation cycle of the `RenderEffect` closure
(lines 406-611), up to but not including the deferred microtask: build
`new_items`; in a non-interactive rendering context (SSR or hydration)
clear the metadata, replace the alive set and fire `on_after_snapshot`
without touching anything else; otherwise snapshot the connected elements,
evict re-added keys from the leaving set, fire `on_after_snapshot`, process
the removed items, move them into the leaving set, and replace the alive
set with `new_items`.  Returns the new state, the event trace and the
snapshot map captured for the deferred pass. -/
def runCycleSync {K I : Type} [DecidableEq K] (env : Nat → ElemGeom)
    (nonInteractive : Bool) (newPairs : List (K × I)) (s : EngineState K I) :
    Except String (EngineState K I × List (Event K) × List (K × ElementSnapshot)) :=
  let newItems := ofListIM newPairs
  if nonInteractive then
    .ok ({ alive := newItems, leaving := s.leaving, meta := [], nextAnim := s.nextAnim },
      [Event.onAfterSnapshot], [])
  else
    match snapshotPass env s.meta with
    | .error e => .error e
    | .ok (snaps, sevs) =>
      let leaving1 := evictLeaving (keysOf newItems) s.leaving
      let removed := s.alive.filter fun p => !containsKeyIM newItems p.1
      match processRemovals snaps removed s.meta s.nextAnim with
      | .error e => .error e
      | .ok (meta', remEvs, ctr') =>
        .ok ({ alive := newItems, leaving := extendIM leaving1 removed, meta := meta'
               nextAnim := ctr' },
          sevs ++ Event.onAfterSnapshot :: remEvs, snaps)

/-- The deferred microtask pass (lines 615-668) over the metadata entries:
an entry without a before snapshot is a new item — fire `on_enter_start`,
cancel any stored animation, start the enter animation and store its
handle; an entry with a before snapshot is re-snapshotted (extent only when
`animate_size`), skipped when the move-skip condition holds, and otherwise
gets its stored animation cancelled and a move animation started and
stored. -/
def deferredPhase {K : Type} [DecidableEq K] (env : Nat → ElemGeom) (animateSize : Bool)
    (snaps : List (K × ElementSnapshot)) :
    List (K × ItemMeta) → Nat → Except String (List (K × ItemMeta) × List (Event K) × Nat)
  | [], ctr => .ok ([], [], ctr)
  | (k, m) :: rest, ctr =>
    match expectEl m.el with
    | .error e => .error e
    | .ok el =>
      match lookupIM snaps k with
      | none =>
        let cancelEvs : List (Event K) :=
          match m.curAnim with
          | some a => [Event.cancelAnim a]
          | none => []
        match deferredPhase env animateSize snaps rest (ctr + 1) with
        | .error e => .error e
        | .ok (rest', evs, ctr') =>
          .ok ((k, { m with curAnim := some ctr }) :: rest',
            (Event.onEnterStart k :: cancelEvs ++ [Event.startEnter k ctr]) ++ evs, ctr')
      | some prevSnapshot =>
        match getElSnapshot (env el) animateSize with
        | .error e => .error e
        | .ok newSnapshot =>
          if moveSkip prevSnapshot newSnapshot then
            match deferredPhase env animateSize snaps rest ctr with
            | .error e => .error e
            | .ok (rest', evs, ctr') => .ok ((k, m) :: rest', evs, ctr')
          else
            let cancelEvs : List (Event K) :=
              match m.curAnim with
              | some a => [Event.cancelAnim a]
              | none => []
            match deferredPhase env animateSize snaps rest (ctr + 1) with
            | .error e => .error e
            | .ok (rest', evs, ctr') =>
              .ok ((k, { m with curAnim := some ctr }) :: rest',
                (cancelEvs ++ [Event.startMove k ctr]) ++ evs, ctr')

/-! ## Concrete fixtures for witnesses and counterexamples -/

/-- Geometry of a connected element at the origin with zero margins. -/
def exGeom : ElemGeom :=
  { connected := true, boundX := 0, boundY := 0, boundW := 0, boundH := 0
    parentX := 0, parentY := 0, marginTop := CssLen.px 0, marginLeft := CssLen.px 0 }

/-- Environment in which every element has `exGeom`. -/
def exEnv : Nat → ElemGeom := fun _ => exGeom

/-- Geometry whose `margin-top` is not expressed in pixels. -/
def exGeomBadMargin : ElemGeom := { exGeom with marginTop := CssLen.nonPx }

/-- Environment in which element `1` has the bad margin and all others are
fine. -/
def exEnvBad : Nat → ElemGeom := fun e => if e = 1 then exGeomBadMargin else exGeom

/-- An all-zero element snapshot with extent recorded. -/
def exSnap : ElementSnapshot :=
  { position := { x := 0, y := 0 }, extent := some { width := 0, height := 0 } }

theorem fuzzyCompare_self (a : ℚ) : fuzzyCompare a a = true := by
  simp only [fuzzyCompare, sub_self, abs_zero, decide_eq_true_eq]
  norm_num

/-! ## C5: the non-interactive (SSR / hydration) short-circuit -/

/-- C5: in a non-interactive rendering context the cycle replaces the alive
set with `new_items`, clears all `ItemMeta`, leaves the leaving set
untouched, takes no snapshots (empty snapshot map) and performs no
animation work — the only event is the `on_after_snapshot` callback. -/
theorem ssr_cycle_skips_all_animation {K I : Type} [DecidableEq K]
    (env : Nat → ElemGeom) (newPairs : List (K × I)) (s : EngineState K I) :
    runCycleSync env true newPairs s =
      .ok ({ alive := ofListIM newPairs, leaving := s.leaving, meta := [],
             nextAnim := s.nextAnim },
        [Event.onAfterSnapshot], []) := by
  rw [runCycleSync]
  simp

/-! ## C6: geometry parse failures abort the whole cycle -/

/-- Counterexample for C6 as stated: with two tracked items of which only
item `1` has a non-pixel margin, the snapshot pass and with it the whole
reconciliation cycle abort with the margin panic; item `2` is never
snapshotted and no commit happens, so the failure is not local to item
`1`'s animation step. -/
theorem parse_failure_aborts_cycle_counterexample :
    snapshotPass (K := Nat) exEnvBad
        [(1, ⟨some 1, some 1, none⟩), (2, ⟨some 2, some 2, none⟩)] =
      .error "margin-top is not in pixels" ∧
    runCycleSync (K := Nat) (I := Nat) exEnvBad false [(1, 10), (2, 20)]
        { alive := [(1, 10), (2, 20)], leaving := [],
          meta := [(1, ⟨some 1, some 1, none⟩), (2, ⟨some 2, some 2, none⟩)],
          nextAnim := 0 } =
      .error "margin-top is not in pixels" := by
  constructor <;> rfl

/-- C6 (amended): a geometry parse failure surfaces clearly — the
measurement returns the explicit margin panic rather than defaulting to
zero — but it is fatal to the whole reconciliation cycle, not local to the
failing key: the snapshot pass and the entire synchronous cycle abort with
that panic no matter which further items follow. -/
theorem parse_failure_surfaces_and_aborts {K I : Type} [DecidableEq K]
    (env : Nat → ElemGeom) (k : K) (m : ItemMeta) (e : Nat)
    (rest : List (K × ItemMeta)) (al lv : List (K × I)) (ctr : Nat)
    (newPairs : List (K × I))
    (hel : m.el = some e) (hconn : (env e).connected = true)
    (hbad : (env e).marginTop = CssLen.nonPx) :
    getElSnapshot (env e) true = .error "margin-top is not in pixels" ∧
    snapshotPass env ((k, m) :: rest) = .error "margin-top is not in pixels" ∧
    runCycleSync env false newPairs
        { alive := al, leaving := lv, meta := (k, m) :: rest, nextAnim := ctr } =
      .error "margin-top is not in pixels" := by
  have hsnap : getElSnapshot (env e) true = .error "margin-top is not in pixels" := by
    rw [getElSnapshot, hbad]
    rfl
  have hpass : snapshotPass (K := K) env ((k, m) :: rest) =
      .error "margin-top is not in pixels" := by
    rw [snapshotPass, hel]
    simp only [expectEl]
    rw [if_pos hconn, hsnap]
  refine ⟨hsnap, hpass, ?_⟩
  rw [runCycleSync]
  simp only [Bool.false_eq_true, if_false]
  rw [hpass]

/-- Witness for C6 (amended) at the concrete bad-margin environment. -/
theorem parse_failure_surfaces_and_aborts_witness :
    runCycleSync (K := Nat) (I := Nat) exEnvBad false [(3, 30)]
        { alive := [(1, 10)], leaving := [], meta := [(1, ⟨some 1, none, none⟩)],
          nextAnim := 5 } =
      .error "margin-top is not in pixels" :=
  (parse_failure_surfaces_and_aborts exEnvBad 1 ⟨some 1, none, none⟩ 1 [] [(1, 10)] []
    5 [(3, 30)] rfl rfl rfl).2.2

/-! ## C2: cancellation order of the three strategy invocations -/

/-- Counterexample for C2 as stated: in the leave invocation (`anim_fn`,
lines 519-547) the new leave animation is started *before* the previously
stored animation handle is cancelled — the source cancels only after the
leave animation had a chance to read the element's properties.  In this
concrete removal the start event (index 3) precedes the cancel event
(index 4). -/
theorem leave_starts_before_cancel_counterexample :
    processRemovals (K := Nat) (I := Nat) [(1, exSnap)] [(1, 10)]
        [(1, ⟨some 1, some 0, some 3⟩)] 7 =
      .ok ([],
        [Event.pauseObserver 1, Event.onLeaveStart 1,
          Event.pinAbsolute 1 exSnap.position ⟨0, 0⟩,
          Event.startLeave 1 7, Event.cancelAnim 3, Event.registerFinish 1 7], 8) ∧
    List.findIdx (fun x => decide (x = Event.startLeave 1 7))
        [Event.pauseObserver 1, Event.onLeaveStart 1,
          Event.pinAbsolute (K := Nat) 1 exSnap.position ⟨0, 0⟩,
          Event.startLeave 1 7, Event.cancelAnim 3, Event.registerFinish 1 7] = 3 ∧
    List.findIdx (fun x => decide (x = Event.cancelAnim 3))
        [Event.pauseObserver 1, Event.onLeaveStart 1,
          Event.pinAbsolute (K := Nat) 1 exSnap.position ⟨0, 0⟩,
          Event.startLeave 1 7, Event.cancelAnim 3, Event.registerFinish 1 7] = 4 := by
  refine ⟨rfl, ?_, ?_⟩ <;> rfl

/-- C2 (amended): at most one animation handle is stored per item
(`ItemMeta::cur_anim` is a single optional slot, and each invocation stores
exactly the newly created handle or removes the entry); every strategy
invocation cancels the previously stored handle exactly once, but only the
enter and move invocations cancel it before starting the new animation —
the leave invocation starts the new leave animation first and cancels the
stored handle immediately afterwards, so that the leave animation can read
the element's properties before they change. -/
theorem strategy_invocations_cancel_stored_handle {K I : Type} [DecidableEq K]
    (env : Nat → ElemGeom) (animateSize : Bool) (snaps : List (K × ElementSnapshot))
    (k : K) (m : ItemMeta) (a e ctr : Nat)
    (hel : m.el = some e) (hcur : m.curAnim = some a) :
    (lookupIM snaps k = none →
      deferredPhase env animateSize snaps [(k, m)] ctr =
        .ok ([(k, { m with curAnim := some ctr })],
          [Event.onEnterStart k, Event.cancelAnim a, Event.startEnter k ctr], ctr + 1)) ∧
    (∀ prevSnapshot newSnapshot,
      lookupIM snaps k = some prevSnapshot →
      getElSnapshot (env e) animateSize = .ok newSnapshot →
      moveSkip prevSnapshot newSnapshot = false →
      deferredPhase env animateSize snaps [(k, m)] ctr =
        .ok ([(k, { m with curAnim := some ctr })],
          [Event.cancelAnim a, Event.startMove k ctr], ctr + 1)) ∧
    (∀ (it : I) (meta : List (K × ItemMeta)) (snap : ElementSnapshot) (ext : Extent)
        (obs : Nat),
      lookupIM meta k = some m → m.observer = some obs →
      lookupIM snaps k = some snap → snap.extent = some ext →
      processRemovals snaps [(k, it)] meta ctr =
        .ok (removeKeyHM meta k,
          [Event.pauseObserver k, Event.onLeaveStart k,
            Event.pinAbsolute k snap.position ext,
            Event.startLeave k ctr, Event.cancelAnim a, Event.registerFinish k ctr],
          ctr + 1)) := by
  refine ⟨?_, ?_, ?_⟩
  · intro hnone
    rw [deferredPhase, hel]
    simp only [expectEl]
    rw [hnone, hcur]
    rw [deferredPhase]
    rfl
  · intro prevSnapshot newSnapshot hprev hsnap hskip
    simp [deferredPhase, hel, expectEl, hprev, hsnap, hskip, hcur]
  · intro it meta snap ext obs hm hobs hsnap hext
    simp [processRemovals, hm, hobs, hel, expectEl, hsnap, hext, hcur]

/-- Witness for C2 (amended): a concrete enter invocation with a stored
handle `3` cancels it between `on_enter_start` and the new start. -/
theorem strategy_invocations_cancel_stored_handle_witness :
    deferredPhase (K := Nat) exEnv false [] [(0, ⟨some 5, some 0, some 3⟩)] 7 =
      .ok ([(0, ⟨some 5, some 0, some 7⟩)],
        [Event.onEnterStart 0, Event.cancelAnim 3, Event.startEnter 0 7], 8) :=
  (strategy_invocations_cancel_stored_handle (I := Nat) exEnv false [] 0
    ⟨some 5, some 0, some 3⟩ 3 5 7 rfl rfl).1 rfl

/-! ## C1: eviction keeps the rendered key list duplicate-free -/

theorem mem_keysOf {K V : Type} [DecidableEq K] {l : List (K × V)} {a : K} :
    a ∈ keysOf l ↔ ∃ p ∈ l, p.1 = a := by
  simp [keysOf, List.mem_map]

theorem mem_keysOf_filter_not_contains {K V W : Type} [DecidableEq K]
    {l : List (K × V)} {N : List (K × W)} {a : K} :
    a ∈ keysOf (l.filter fun p => !containsKeyIM N p.1) ↔
      a ∈ keysOf l ∧ a ∉ keysOf N := by
  rw [mem_keysOf]
  constructor
  · rintro ⟨p, hp, rfl⟩
    rcases List.mem_filter.mp hp with ⟨hpl, hq⟩
    rw [Bool.not_eq_true'] at hq
    exact ⟨mem_keysOf.mpr ⟨p, hpl, rfl⟩, containsKeyIM_eq_false_iff.mp hq⟩
  · rintro ⟨ha, hn⟩
    rcases mem_keysOf.mp ha with ⟨p, hp, rfl⟩
    refine ⟨p, List.mem_filter.mpr ⟨hp, ?_⟩, rfl⟩
    rw [Bool.not_eq_true']
    exact containsKeyIM_eq_false_iff.mpr hn

/-- Inversion of a successful client-side reconciliation cycle into its
snapshot pass, removal pass and the committed state. -/
theorem runCycleSync_ok_inv {K I : Type} [DecidableEq K]
    {env : Nat → ElemGeom} {newPairs : List (K × I)} {s s' : EngineState K I}
    {evs : List (Event K)} {snaps : List (K × ElementSnapshot)}
    (h : runCycleSync env false newPairs s = .ok (s', evs, snaps)) :
    ∃ sevs meta' remEvs ctr',
      snapshotPass env s.meta = .ok (snaps, sevs) ∧
      processRemovals snaps
          (s.alive.filter fun p => !containsKeyIM (ofListIM newPairs) p.1)
          s.meta s.nextAnim = .ok (meta', remEvs, ctr') ∧
      s' = { alive := ofListIM newPairs,
             leaving := extendIM (evictLeaving (keysOf (ofListIM newPairs)) s.leaving)
               (s.alive.filter fun p => !containsKeyIM (ofListIM newPairs) p.1),
             meta := meta', nextAnim := ctr' } ∧
      evs = sevs ++ Event.onAfterSnapshot :: remEvs := by
  rw [runCycleSync] at h
  simp only [Bool.false_eq_true, if_false] at h
  cases hsp : snapshotPass env s.meta with
  | error e => rw [hsp] at h; simp at h
  | ok pr =>
    obtain ⟨snaps0, sevs⟩ := pr
    rw [hsp] at h
    simp only at h
    cases hpr : processRemovals snaps0
        (s.alive.filter fun p => !containsKeyIM (ofListIM newPairs) p.1)
        s.meta s.nextAnim with
    | error e => rw [hpr] at h; simp at h
    | ok tr =>
      obtain ⟨meta', remEvs, ctr'⟩ := tr
      rw [hpr] at h
      simp only [Except.ok.injEq, Prod.mk.injEq] at h
      obtain ⟨hs', hevs, hsnaps⟩ := h
      subst hsnaps
      exact ⟨sevs, meta', remEvs, ctr', rfl, hpr, hs'.symm, hevs.symm⟩

/-- C1: in every successful client-side reconciliation cycle, every key of
the new desired collection that was in the leaving set is evicted before
commit; after commit the alive and leaving key sets are disjoint, and the
rendered key list (alive keys then leaving keys, as `items_fn` produces it)
has no duplicates and is exactly the union of the two key sets. -/
theorem eviction_keeps_rendered_keys_disjoint {K I : Type} [DecidableEq K]
    (env : Nat → ElemGeom) (newPairs : List (K × I)) (s s' : EngineState K I)
    (evs : List (Event K)) (snaps : List (K × ElementSnapshot))
    (hlv : (keysOf s.leaving).Nodup)
    (hrun : runCycleSync env false newPairs s = .ok (s', evs, snaps)) :
    s'.alive = ofListIM newPairs ∧
    (∀ k, k ∈ keysOf (ofListIM newPairs) →
      k ∉ keysOf (evictLeaving (keysOf (ofListIM newPairs)) s.leaving)) ∧
    (∀ k, k ∈ keysOf s'.alive → k ∉ keysOf s'.leaving) ∧
    (renderedKeys s').Nodup ∧
    (∀ k, k ∈ renderedKeys s' ↔ k ∈ keysOf s'.alive ∨ k ∈ keysOf s'.leaving) := by
  obtain ⟨sevs, meta', remEvs, ctr', hsp, hpr, hs', hevs⟩ := runCycleSync_ok_inv hrun
  subst hs'
  have hdisj : ∀ k, k ∈ keysOf (ofListIM newPairs) →
      k ∉ keysOf (extendIM (evictLeaving (keysOf (ofListIM newPairs)) s.leaving)
        (s.alive.filter fun p => !containsKeyIM (ofListIM newPairs) p.1)) := by
    intro k hk hmem
    rcases mem_keysOf_extendIM.mp hmem with hev | hrm
    · exact ((mem_keysOf_evictLeaving hlv).mp hev).2 hk
    · exact (mem_keysOf_filter_not_contains.mp hrm).2 hk
  refine ⟨rfl, ?_, hdisj, ?_, ?_⟩
  · intro k hk hmem
    exact ((mem_keysOf_evictLeaving hlv).mp hmem).2 hk
  · refine List.Nodup.append nodup_keysOf_ofListIM
      (nodup_keysOf_extendIM (nodup_keysOf_evictLeaving hlv)) ?_
    intro k hk hmem
    exact hdisj k hk hmem
  · intro k
    exact List.mem_append

/-- Witness fixture for C1: the engine state before the cycle. -/
def c1S : EngineState Nat Nat :=
  { alive := [(1, 10), (2, 20)], leaving := [(3, 30)],
    meta := [(1, ⟨some 1, some 1, none⟩), (2, ⟨some 2, some 2, none⟩)], nextAnim := 0 }

/-- Environment in which every element is disconnected from the document. -/
def exEnvOff : Nat → ElemGeom := fun _ => { exGeom with connected := false }

/-- Witness fixture for C1: the engine state after applying `[(2,21),(3,31)]`
to `c1S` — key `3` was evicted from the leaving set, key `1` left. -/
def c1S' : EngineState Nat Nat :=
  { alive := [(2, 21), (3, 31)], leaving := [(1, 10)],
    meta := [(2, ⟨some 2, some 2, none⟩)], nextAnim := 0 }

/-- Witness for C1 at a concrete cycle: key `3` reappears while leaving and
is evicted; the rendered key list `[2, 3, 1]` has no duplicates. -/
theorem eviction_keeps_rendered_keys_disjoint_witness :
    c1S'.alive = ofListIM [(2, 21), (3, 31)] ∧
    (2 : Nat) ∉ keysOf c1S'.leaving ∧
    (3 : Nat) ∉ keysOf (evictLeaving (keysOf (ofListIM [(2, (21 : Nat)), (3, 31)])) c1S.leaving) ∧
    (renderedKeys c1S').Nodup := by
  have h := eviction_keeps_rendered_keys_disjoint exEnvOff [(2, 21), (3, 31)] c1S c1S'
    [Event.onAfterSnapshot, Event.pauseObserver 1] [] (by decide) rfl
  exact ⟨h.1, h.2.2.1 2 (by decide), h.2.1 3 (by decide), h.2.2.2.1⟩

/-! ## C10: removed keys without a before snapshot -/

/-- Every event emitted by the snapshot pass is a `snapshotTaken`. -/
theorem snapshotPass_events {K : Type} [DecidableEq K] {env : Nat → ElemGeom} :
    ∀ {meta : List (K × ItemMeta)} {snaps : List (K × ElementSnapshot)}
      {sevs : List (Event K)},
      snapshotPass env meta = .ok (snaps, sevs) →
      ∀ ev ∈ sevs, ∃ j, ev = Event.snapshotTaken j := by
  intro meta
  induction meta with
  | nil =>
    intro snaps sevs h ev hev
    rw [snapshotPass] at h
    simp only [Except.ok.injEq, Prod.mk.injEq] at h
    obtain ⟨-, hevs⟩ := h
    rw [← hevs] at hev
    simp at hev
  | cons p rest ih =>
    obtain ⟨k, m⟩ := p
    intro snaps sevs h ev hev
    rw [snapshotPass] at h
    cases hel : expectEl m.el with
    | error e => rw [hel] at h; simp at h
    | ok el =>
      rw [hel] at h
      simp only at h
      by_cases hc : (env el).connected = true
      · rw [if_pos hc] at h
        cases hgs : getElSnapshot (env el) true with
        | error e => rw [hgs] at h; simp at h
        | ok snap =>
          rw [hgs] at h
          simp only at h
          cases hrest : snapshotPass env rest with
          | error e => rw [hrest] at h; simp at h
          | ok pr =>
            obtain ⟨snaps', sevs'⟩ := pr
            rw [hrest] at h
            simp only [Except.ok.injEq, Prod.mk.injEq] at h
            obtain ⟨-, hevs⟩ := h
            rw [← hevs] at hev
            rcases List.mem_cons.mp hev with rfl | hev'
            · exact ⟨k, rfl⟩
            · exact ih hrest ev hev'
      · rw [if_neg hc] at h
        exact ih h ev hev

/-- A `startLeave` or `registerFinish` event for key `j` is only emitted by
the removal pass when `j` had a before snapshot. -/
theorem processRemovals_leave_key_has_snapshot {K I : Type} [DecidableEq K]
    {snaps : List (K × ElementSnapshot)} :
    ∀ {removed : List (K × I)} {meta meta' : List (K × ItemMeta)} {ctr ctr' : Nat}
      {evs : List (Event K)},
      processRemovals snaps removed meta ctr = .ok (meta', evs, ctr') →
      ∀ j a, (Event.startLeave j a ∈ evs ∨ Event.registerFinish j a ∈ evs) →
        (lookupIM snaps j).isSome = true := by
  intro removed
  induction removed with
  | nil =>
    intro meta meta' ctr ctr' evs h j a hmem
    rw [processRemovals] at h
    simp only [Except.ok.injEq, Prod.mk.injEq] at h
    obtain ⟨-, hevs, -⟩ := h
    rw [← hevs] at hmem
    simp at hmem
  | cons p rest ih =>
    obtain ⟨k0, it0⟩ := p
    intro meta meta' ctr ctr' evs h j a hmem
    rw [processRemovals] at h
    cases hlk : lookupIM meta k0 with
    | none =>
      rw [hlk] at h
      exact ih h j a hmem
    | some m =>
      rw [hlk] at h
      simp only at h
      cases hel : expectEl m.el with
      | error e => rw [hel] at h; simp at h
      | ok el =>
        rw [hel] at h
        simp only at h
        cases hsk : lookupIM snaps k0 with
        | none =>
          rw [hsk] at h
          simp only at h
          cases hrec : processRemovals snaps rest (removeKeyHM meta k0) ctr with
          | error e => rw [hrec] at h; simp at h
          | ok tr =>
            obtain ⟨meta2, evs2, ctr2⟩ := tr
            rw [hrec] at h
            simp only [Except.ok.injEq, Prod.mk.injEq] at h
            obtain ⟨-, hevs, -⟩ := h
            rw [← hevs] at hmem
            have hmem2 : Event.startLeave j a ∈ evs2 ∨ Event.registerFinish j a ∈ evs2 := by
              cases hobs : m.observer <;> rw [hobs] at hmem <;>
                simpa using hmem
            exact ih hrec j a hmem2
        | some snap =>
          rw [hsk] at h
          simp only at h
          cases hext : snap.extent with
          | none => rw [hext] at h; simp at h
          | some ext =>
            rw [hext] at h
            simp only at h
            cases hrec : processRemovals snaps rest (removeKeyHM meta k0) (ctr + 1) with
            | error e => rw [hrec] at h; simp at h
            | ok tr =>
              obtain ⟨meta2, evs2, ctr2⟩ := tr
              rw [hrec] at h
              simp only [Except.ok.injEq, Prod.mk.injEq] at h
              obtain ⟨-, hevs, -⟩ := h
              rw [← hevs] at hmem
              have hk0 : (lookupIM snaps k0).isSome = true := by rw [hsk]; rfl
              cases hobs : m.observer <;> rw [hobs] at hmem <;>
                cases hca : m.curAnim <;> rw [hca] at hmem <;>
                · rcases hmem with hm | hm <;> simp [List.mem_append, List.mem_cons] at hm <;>
                  · rcases hm with ⟨rfl, -⟩ | hm
                    · exact hk0
                    · exact ih hrec j a (by tauto)

/-- C10: a removed key whose element had no before snapshot (it was
detached during the snapshot pass) is still moved into the leaving set at
commit, but no leave animation is started and no completion handler is
registered for it; consequently the only engine step that can later remove
the key from the leaving set is the eviction that runs when the key
reappears in a subsequent desired collection — the key stays in the
leaving set after any later cycle exactly as long as it is absent from that
cycle's collection. -/
theorem detached_removed_key_parked_in_leaving {K I : Type} [DecidableEq K]
    (env : Nat → ElemGeom) (newPairs : List (K × I)) (s s' : EngineState K I)
    (evs : List (Event K)) (snaps : List (K × ElementSnapshot)) (k : K) (it : I)
    (hlv : (keysOf s.leaving).Nodup)
    (hmem : (k, it) ∈ s.alive)
    (hnotnew : containsKeyIM (ofListIM newPairs) k = false)
    (hnosnap : lookupIM snaps k = none)
    (hrun : runCycleSync env false newPairs s = .ok (s', evs, snaps)) :
    k ∈ keysOf s'.leaving ∧
    (∀ a, Event.startLeave k a ∉ evs) ∧
    (∀ a, Event.registerFinish k a ∉ evs) ∧
    (∀ (env2 : Nat → ElemGeom) (newPairs2 : List (K × I)) (s'' : EngineState K I)
        (evs2 : List (Event K)) (snaps2 : List (K × ElementSnapshot)),
      runCycleSync env2 false newPairs2 s' = .ok (s'', evs2, snaps2) →
      (k ∈ keysOf s''.leaving ↔ containsKeyIM (ofListIM newPairs2) k = false)) := by
  obtain ⟨sevs, meta', remEvs, ctr', hsp, hpr, hs', hevs⟩ := runCycleSync_ok_inv hrun
  have hkrm : k ∈ keysOf (s.alive.filter fun p => !containsKeyIM (ofListIM newPairs) p.1) :=
    mem_keysOf_filter_not_contains.mpr
      ⟨mem_keysOf.mpr ⟨(k, it), hmem, rfl⟩, containsKeyIM_eq_false_iff.mp hnotnew⟩
  have hkleaving : k ∈ keysOf s'.leaving := by
    rw [hs']
    exact mem_keysOf_extendIM.mpr (Or.inr hkrm)
  have hnoleave : ∀ a, Event.startLeave k a ∉ evs := by
    intro a hin
    rw [hevs] at hin
    rcases List.mem_append.mp hin with hin | hin
    · rcases snapshotPass_events hsp _ hin with ⟨j, hj⟩
      exact Event.noConfusion hj
    · rcases List.mem_cons.mp hin with hj | hin
      · exact Event.noConfusion hj
      · have := processRemovals_leave_key_has_snapshot hpr k a (Or.inl hin)
        rw [hnosnap] at this
        exact Bool.false_ne_true this
  have hnofinish : ∀ a, Event.registerFinish k a ∉ evs := by
    intro a hin
    rw [hevs] at hin
    rcases List.mem_append.mp hin with hin | hin
    · rcases snapshotPass_events hsp _ hin with ⟨j, hj⟩
      exact Event.noConfusion hj
    · rcases List.mem_cons.mp hin with hj | hin
      · exact Event.noConfusion hj
      · have := processRemovals_leave_key_has_snapshot hpr k a (Or.inr hin)
        rw [hnosnap] at this
        exact Bool.false_ne_true this
  refine ⟨hkleaving, hnoleave, hnofinish, ?_⟩
  intro env2 newPairs2 s'' evs2 snaps2 hrun2
  obtain ⟨sevs2, meta2, remEvs2, ctr2, hsp2, hpr2, hs'', hevs2⟩ := runCycleSync_ok_inv hrun2
  have hlv' : (keysOf s'.leaving).Nodup := by
    rw [hs']
    exact nodup_keysOf_extendIM (nodup_keysOf_evictLeaving hlv)
  have halive' : ∀ a, a ∈ keysOf s'.alive ↔ a ∈ keysOf (ofListIM newPairs) := by
    intro a
    rw [hs']
  rw [hs'']
  constructor
  · intro hmem''
    rcases mem_keysOf_extendIM.mp hmem'' with hev | hrm
    · exact containsKeyIM_eq_false_iff.mpr ((mem_keysOf_evictLeaving hlv').mp hev).2
    · exfalso
      have := (mem_keysOf_filter_not_contains.mp hrm).1
      rw [(halive' k)] at this
      exact containsKeyIM_eq_false_iff.mp hnotnew this
  · intro hnot2
    exact mem_keysOf_extendIM.mpr
      (Or.inl ((mem_keysOf_evictLeaving hlv').mpr
        ⟨hkleaving, containsKeyIM_eq_false_iff.mp hnot2⟩))

/-- Witness fixture for C10: the state before the cycle; the only item's
element will be reported as detached. -/
def c10S : EngineState Nat Nat :=
  { alive := [(1, 10)], leaving := [], meta := [(1, ⟨some 1, some 1, some 4⟩)], nextAnim := 0 }

/-- Witness fixture for C10: the state after removing key `1` while its
element was detached: it sits in the leaving set with no animation. -/
def c10S' : EngineState Nat Nat :=
  { alive := [], leaving := [(1, 10)], meta := [], nextAnim := 0 }

/-- Witness fixture for C10: the state after key `1` reappears in the next
cycle and is evicted from the leaving set. -/
def c10S'' : EngineState Nat Nat :=
  { alive := [(1, 11)], leaving := [], meta := [], nextAnim := 0 }

/-- Witness for C10 at a concrete pair of cycles. -/
theorem detached_removed_key_parked_in_leaving_witness :
    (1 : Nat) ∈ keysOf c10S'.leaving ∧
    Event.startLeave (1 : Nat) 4 ∉
      ([Event.onAfterSnapshot, Event.pauseObserver 1] : List (Event Nat)) ∧
    Event.registerFinish (1 : Nat) 4 ∉
      ([Event.onAfterSnapshot, Event.pauseObserver 1] : List (Event Nat)) ∧
    ((1 : Nat) ∈ keysOf c10S''.leaving ↔
      containsKeyIM (ofListIM [((1 : Nat), (11 : Nat))]) 1 = false) := by
  have h := detached_removed_key_parked_in_leaving exEnvOff [] c10S c10S'
    [Event.onAfterSnapshot, Event.pauseObserver 1] [] 1 10
    (by decide) (by decide) rfl rfl rfl
  exact ⟨h.1, h.2.1 4, h.2.2.1 4,
    h.2.2.2 exEnvOff [(1, 11)] c10S'' [Event.onAfterSnapshot] [] rfl⟩

/-! ## C8: idempotence of re-applying the same collection -/

/-- Value of `get_el_snapshot` when both margins are pixel values. -/
theorem getElSnapshot_px {g : ElemGeom} {mt ml : ℚ}
    (ht : g.marginTop = CssLen.px mt) (hl : g.marginLeft = CssLen.px ml) (b : Bool) :
    getElSnapshot g b = .ok
      { position := { x := g.boundX - g.parentX - ml, y := g.boundY - g.parentY - mt }
        extent := if b then some { width := g.boundW, height := g.boundH } else none } := by
  rw [getElSnapshot, ht, hl]
  rfl

/-- Value of `get_el_snapshot` with extent recording, margins in pixels. -/
theorem getElSnapshot_px_true {g : ElemGeom} {mt ml : ℚ}
    (ht : g.marginTop = CssLen.px mt) (hl : g.marginLeft = CssLen.px ml) :
    getElSnapshot g true = .ok
      { position := { x := g.boundX - g.parentX - ml, y := g.boundY - g.parentY - mt }
        extent := some { width := g.boundW, height := g.boundH } } := by
  rw [getElSnapshot, ht, hl]
  rfl

/-- Two snapshots of unchanged geometry always satisfy the move-skip
condition, whether or not the new snapshot records the extent. -/
theorem moveSkip_same_geom (p : Position) (ex : Extent) (b : Bool) :
    moveSkip { position := p, extent := some ex }
      { position := p, extent := if b then some ex else none } = true := by
  cases b <;>
    simp [moveSkip, Position.beq, fuzzyCompare_self, extentOptBeq, Extent.beq]

/-- When every tracked element is connected with pixel margins, the
snapshot pass succeeds, emits only `snapshotTaken` events, and records a
snapshot for every metadata key. -/
theorem snapshotPass_all_connected {K : Type} [DecidableEq K] {env : Nat → ElemGeom} :
    ∀ {meta : List (K × ItemMeta)},
      (keysOf meta).Nodup →
      (∀ p ∈ meta, ∃ e mt ml, p.2.el = some e ∧ (env e).connected = true ∧
        (env e).marginTop = CssLen.px mt ∧ (env e).marginLeft = CssLen.px ml) →
      ∃ snaps sevs, snapshotPass env meta = .ok (snaps, sevs) ∧
        (∀ ev ∈ sevs, ev.isStart = false) ∧
        (∀ p ∈ meta, ∀ e, p.2.el = some e →
          ∃ snap, lookupIM snaps p.1 = some snap ∧
            getElSnapshot (env e) true = .ok snap) := by
  intro meta
  induction meta with
  | nil =>
    intro _ _
    exact ⟨[], [], rfl, by simp, by simp⟩
  | cons p rest ih =>
    obtain ⟨k, m⟩ := p
    intro hnodup hok
    obtain ⟨e, mt, ml, hel, hconn, hmt, hml⟩ := hok (k, m) (List.mem_cons_self _ _)
    obtain ⟨snaps', sevs', hsp', hstart', hlook'⟩ :=
      ih (by simpa [keysOf] using hnodup.of_cons)
        (fun q hq => hok q (List.mem_cons_of_mem _ hq))
    have hknot : k ∉ keysOf rest := by
      have := hnodup
      simp only [keysOf, List.map_cons, List.nodup_cons] at this
      exact this.1
    refine ⟨(k, ⟨⟨(env e).boundX - (env e).parentX - ml,
        (env e).boundY - (env e).parentY - mt⟩,
      some ⟨(env e).boundW, (env e).boundH⟩⟩) :: snaps',
      Event.snapshotTaken k :: sevs', ?_, ?_, ?_⟩
    · rw [snapshotPass, hel]
      simp only [expectEl]
      rw [if_pos hconn, getElSnapshot_px_true hmt hml, hsp']
    · intro ev hev
      rcases List.mem_cons.mp hev with rfl | hev'
      · rfl
      · exact hstart' ev hev'
    · intro q hq e' hel'
      rcases List.mem_cons.mp hq with rfl | hq'
      · have he : e' = e := by rw [hel] at hel'; exact (Option.some_inj.mp hel').symm
        subst he
        refine ⟨_, ?_, getElSnapshot_px_true hmt hml⟩
        rw [lookupIM, if_pos rfl]
      · have hne : q.1 ≠ k := by
          intro hqk
          exact hknot (hqk ▸ mem_keysOf.mpr ⟨q, hq', rfl⟩)
        obtain ⟨snap, hlk, hgs⟩ := hlook' q hq' e' hel'
        refine ⟨snap, ?_, hgs⟩
        rw [lookupIM, if_neg (fun hkq => hne hkq.symm)]
        exact hlk

/-- When every metadata entry has a before snapshot fuzzy-equal to its
fresh after snapshot, the deferred pass is a no-op: no events, no metadata
changes, no handles consumed. -/
theorem deferredPhase_skips_all {K : Type} [DecidableEq K] {env : Nat → ElemGeom}
    {animateSize : Bool} {snaps : List (K × ElementSnapshot)} :
    ∀ {meta : List (K × ItemMeta)} {ctr : Nat},
      (∀ p ∈ meta, ∃ e prevSnapshot newSnapshot, p.2.el = some e ∧
        lookupIM snaps p.1 = some prevSnapshot ∧
        getElSnapshot (env e) animateSize = .ok newSnapshot ∧
        moveSkip prevSnapshot newSnapshot = true) →
      deferredPhase env animateSize snaps meta ctr = .ok (meta, [], ctr) := by
  intro meta
  induction meta with
  | nil => intro ctr _; rfl
  | cons p rest ih =>
    obtain ⟨k, m⟩ := p
    intro ctr h
    obtain ⟨e, prevSnapshot, newSnapshot, hel, hlk, hgs, hms⟩ :=
      h (k, m) (List.mem_cons_self _ _)
    have hrest := @ih ctr (fun q hq => h q (List.mem_cons_of_mem _ hq))
    rw [deferredPhase, hel]
    simp only [expectEl]
    rw [hlk]
    simp only
    rw [hgs]
    simp only
    rw [if_pos hms, hrest]

/-- C8: applying the same desired collection twice in a row (client side,
geometry unchanged, all elements mounted and connected with pixel margins)
starts zero enter, leave or move animations on the second application: the
removed set is empty, the synchronous cycle emits no start events, the
metadata is unchanged, and the deferred pass is a complete no-op because
every alive key's after snapshot fuzzy-equals its before snapshot. -/
theorem reapply_same_collection_idempotent {K I : Type} [DecidableEq K]
    (env : Nat → ElemGeom) (animateSize : Bool) (newPairs : List (K × I))
    (s : EngineState K I)
    (halive : s.alive = ofListIM newPairs)
    (hmnodup : (keysOf s.meta).Nodup)
    (hmok : ∀ p ∈ s.meta, ∃ e mt ml, p.2.el = some e ∧ (env e).connected = true ∧
      (env e).marginTop = CssLen.px mt ∧ (env e).marginLeft = CssLen.px ml) :
    (s.alive.filter fun p => !containsKeyIM (ofListIM newPairs) p.1) = [] ∧
    ∃ s' evs snaps,
      runCycleSync env false newPairs s = .ok (s', evs, snaps) ∧
      (∀ ev ∈ evs, ev.isStart = false) ∧
      s'.meta = s.meta ∧
      deferredPhase env animateSize snaps s'.meta s'.nextAnim =
        .ok (s'.meta, [], s'.nextAnim) := by
  have hrm : (s.alive.filter fun p => !containsKeyIM (ofListIM newPairs) p.1) = [] := by
    rw [List.filter_eq_nil_iff]
    intro p hp
    rw [halive] at hp
    have : containsKeyIM (ofListIM newPairs) p.1 = true :=
      containsKeyIM_iff.mpr (mem_keysOf.mpr ⟨p, hp, rfl⟩)
    simp [this]
  obtain ⟨snaps, sevs, hsp, hstart, hlook⟩ := snapshotPass_all_connected hmnodup hmok
  have hcycle : runCycleSync env false newPairs s =
      .ok ({ alive := ofListIM newPairs,
             leaving := evictLeaving (keysOf (ofListIM newPairs)) s.leaving,
             meta := s.meta, nextAnim := s.nextAnim },
        sevs ++ [Event.onAfterSnapshot], snaps) := by
    rw [runCycleSync]
    simp only [Bool.false_eq_true, if_false]
    rw [hsp]
    simp only
    rw [hrm, processRemovals]
    simp [extendIM]
  refine ⟨hrm, _, _, _, hcycle, ?_, rfl, ?_⟩
  · intro ev hev
    rcases List.mem_append.mp hev with hev' | hev'
    · exact hstart ev hev'
    · rcases List.mem_singleton.mp hev' with rfl
      rfl
  · apply deferredPhase_skips_all
    intro p hp
    obtain ⟨e, mt, ml, hel, hconn, hmt, hml⟩ := hmok p hp
    obtain ⟨snap, hlk, hgs⟩ := hlook p hp e hel
    have hval := getElSnapshot_px_true hmt hml
    rw [hgs] at hval
    simp only [Except.ok.injEq] at hval
    subst hval
    exact ⟨e, _, _, hel, hlk, getElSnapshot_px hmt hml animateSize,
      moveSkip_same_geom _ _ animateSize⟩

/-- Witness fixture for C8: a settled one-item state whose collection is
re-applied unchanged. -/
def c8S : EngineState Nat Nat :=
  { alive := [(1, 10)], leaving := [], meta := [(1, ⟨some 1, some 1, none⟩)], nextAnim := 0 }

/-- Witness fixture for C8: the snapshot the cycle takes of element `1`
(origin position, zero extent), written as the measurement computes it. -/
def c8Snap : ElementSnapshot :=
  { position := { x := (0 : ℚ) - 0 - 0, y := (0 : ℚ) - 0 - 0 }
    extent := some { width := 0, height := 0 } }

/-- Witness for C8 at a concrete re-applied collection: no start events in
the cycle and a no-op deferred pass. -/
theorem reapply_same_collection_idempotent_witness :
    ([((1 : Nat), (10 : Nat))].filter
      fun p => !containsKeyIM (ofListIM [((1 : Nat), (10 : Nat))]) p.1) = [] ∧
    runCycleSync exEnv false [(1, 10)] c8S =
      .ok (c8S, [Event.snapshotTaken 1, Event.onAfterSnapshot], [(1, c8Snap)]) ∧
    deferredPhase exEnv false [(1, c8Snap)] c8S.meta c8S.nextAnim =
      .ok (c8S.meta, [], c8S.nextAnim) := by
  obtain ⟨h1, s', evs, snaps, hcy, hns, hmeta, hdef⟩ :=
    reapply_same_collection_idempotent exEnv false [(1, 10)] c8S rfl (by decide)
      (by
        rintro p hp
        rcases List.mem_singleton.mp hp with rfl
        exact ⟨1, 0, 0, rfl, rfl, rfl, rfl⟩)
  have hlit : runCycleSync exEnv false [(1, 10)] c8S =
      .ok (c8S, [Event.snapshotTaken 1, Event.onAfterSnapshot], [(1, c8Snap)]) := rfl
  rw [hlit] at hcy
  simp only [Except.ok.injEq, Prod.mk.injEq] at hcy
  obtain ⟨hs', hevs, hsnaps⟩ := hcy
  rw [← hs', ← hsnaps] at hdef
  exact ⟨h1, hlit, hdef⟩
